import Mathlib

/-!
Verification of the Z-model IFRS 9 ECL engine (shallow embedding).

Each definition below is translated from the Python sources in
`src/z_model/`.  Machine floats are modelled by `ℝ` (exact arithmetic);
fallible code returns `Except`/`Option`; numpy in-place updates become
explicit functional updates.  The file first gives the embedded
definitions, then the theorems settling the specification claims.
-/

noncomputable section

/-! ## Matrix write-off augmentation (`transition_matrix.py`, `add_write_off`) -/

/-- Single in-place entry assignment `p[r, c] = v` on an `ℕ → ℕ → ℝ` array. -/
def updEntry (p : ℕ → ℕ → ℝ) (r c : ℕ) (v : ℝ) : ℕ → ℕ → ℝ :=
  fun i j => if i = r ∧ j = c then v else p i j

/-- `mu_w = 1 / time_to_sale` (force of transition to write-off). -/
def wo_mu_w (tts : ℝ) : ℝ := 1 / tts

/-- `mu_c = (mu_w - (1 - pcure) * mu_w) / (1 - pcure)` (force of transition to
cure), exactly as written in `add_write_off`. -/
def wo_mu_c (pcure tts : ℝ) : ℝ :=
  (wo_mu_w tts - (1 - pcure) * wo_mu_w tts) / (1 - pcure)

/-- `s = exp(-(mu_c + mu_w))`: one-month probability of remaining in default. -/
def wo_s (pcure tts : ℝ) : ℝ := Real.exp (-(wo_mu_c pcure tts + wo_mu_w tts))

/-- `c = (1 - s) * pcure`: one-month probability of cure. -/
def wo_c (pcure tts : ℝ) : ℝ := (1 - wo_s pcure tts) * pcure

/-- `w = 1 - s - c`: one-month probability of write-off. -/
def wo_w (pcure tts : ℝ) : ℝ := 1 - wo_s pcure tts - wo_c pcure tts

/-- Embedding of `add_write_off(x, pcure, cure_state, time_to_sale)`
(`transition_matrix.py` lines 80-95).  `x` is an `n × n` matrix; the result is
`(n+1) × (n+1)`.  The sequence of `updEntry`s mirrors the numpy assignments:
`p[:-1,:-1] = x`, `p[-2,-2] = 0`, `p[-2,cure_state] += c`, `p[-2,-2] += s`,
`p[-2,-1] += w`, `p[-1,-1] = 1`. -/
def add_write_off (n : ℕ) (x : ℕ → ℕ → ℝ) (pcure : ℝ) (cure_state : ℕ)
    (time_to_sale : ℝ) : ℕ → ℕ → ℝ :=
  let s := wo_s pcure time_to_sale
  let c := wo_c pcure time_to_sale
  let w := wo_w pcure time_to_sale
  let p0 : ℕ → ℕ → ℝ := fun i j => if i < n ∧ j < n then x i j else 0
  let p1 := updEntry p0 (n - 1) (n - 1) 0
  let p2 := updEntry p1 (n - 1) cure_state (p1 (n - 1) cure_state + c)
  let p3 := updEntry p2 (n - 1) (n - 1) (p2 (n - 1) (n - 1) + s)
  let p4 := updEntry p3 (n - 1) n (p3 (n - 1) n + w)
  updEntry p4 n n 1

/-- The concrete 3×3 one-month matrix used as counterexample input: rows
`[1,0,0]`, `[0,1,0]`, `[1/10, 1/5, 7/10]` (default row `2` not absorbing). -/
def xC1 : ℕ → ℕ → ℝ :=
  fun i j =>
    if i = 2 then (if j = 0 then 1/10 else if j = 1 then 1/5 else if j = 2 then 7/10 else 0)
    else if i = j ∧ i < 3 then 1 else 0

/-! ## Scenario executor: weighted-scenario composition (`exeutor.py`) -/

/-- The per-scenario multiplication step `d * weights.get(scenario_name)` of
`calculate_weighted_scenario`: every numeric field of every row is scaled by
the row's scenario weight. -/
def weight_rows {K α : Type} (weights : String → ℝ)
    (data : List (String × K × (α → ℝ))) : List (String × K × (α → ℝ)) :=
  data.map (fun r => (r.1, r.2.1, fun f => weights r.1 * r.2.2 f))

/-- Embedding of `calculate_weighted_scenario(data, weights)`
(`exeutor.py` lines 38-63).  `data` is the concatenated per-scenario row
stream keyed by `(scenario, key)` where `key = (contract_id, T,
forecast_reporting_date)`; rows are field-wise numeric vectors `α → ℝ`.  The
groupby-scenario multiplication is `weight_rows`; the groupby-key `.sum()` is
the filtered sum below; the result is tagged `scenario = "weighted"`. -/
def calculate_weighted_scenario {K α : Type} [DecidableEq K]
    (data : List (String × K × (α → ℝ))) (weights : String → ℝ) :
    String × (K → α → ℝ) :=
  ("weighted", fun k f =>
    (((weight_rows weights data).filter (fun r => decide (r.2.1 = k))).map
      (fun r => r.2.2 f)).sum)

/-- The row stream assembled by `Executor.execute` / `run_scenario`: every
scenario emits one row per key. -/
def scenario_rows {K α : Type} (scenarios : List (String × (K → α → ℝ)))
    (keys : List K) : List (String × K × (α → ℝ)) :=
  scenarios.flatMap (fun s => keys.map (fun k => (s.1, k, s.2 k)))

/-- Concrete two-scenario collection for the C5 witness. -/
def scenC5 : List (String × (ℕ → ℕ → ℝ)) :=
  [("base", fun _ _ => 1), ("down", fun _ _ => 3)]

/-- Concrete scenario weights (summing to 1) for the C5 witness. -/
def wC5 : String → ℝ := fun s => if s = "base" then 0.6 else 0.4

/-! ## Effective interest rate (`effective_interest_rate.py`) -/

/-- The account fields consumed by the embedded components.  Dates are
month-end ordinals (months relative to the reporting date);
`payment_holiday_end_date` is `none` when null. -/
structure Account where
  contract_id : String
  outstanding_balance : ℝ
  limit : ℝ
  current_arrears : ℝ
  contractual_payment : ℝ
  contractual_freq : ℕ
  interest_rate_type : String
  interest_rate_freq : ℝ
  fixed_rate : ℝ
  spread : ℝ
  payment_holiday_end_date : Option ℕ
  remaining_life : ℕ

/-- Python's `str.upper()` (kernel-reducible formulation over the character
list; agrees with `String.toUpper`). -/
def pyUpper (s : String) : String := String.mk (s.data.map Char.toUpper)

/-- `FixedEffectiveInterestRate.__getitem__`: the constant monthly rate
`(1 + fixed_rate/freq)^(freq/12) - 1` over the remaining life. -/
def FixedEffectiveInterestRate.getitem (a : Account) : ℕ → ℝ :=
  fun _ => (1 + a.fixed_rate / a.interest_rate_freq) ^ (a.interest_rate_freq / 12) - 1

/-- `FloatEffectiveInterestRate.__getitem__`: monthly spread plus monthly
converted base rate. -/
def FloatEffectiveInterestRate.getitem (base_rate : ℕ → ℝ) (a : Account) : ℕ → ℝ :=
  fun t => (1 + a.spread / a.interest_rate_freq) ^ (a.interest_rate_freq / 12) - 1
    + ((1 + base_rate t) ^ ((1 : ℝ) / 12) - 1)

/-- A Python call result: either a normal value (a `Series`) or an exception
object returned *as a value* (which is what `return ValueError(...)` does —
no exception is raised). -/
inductive PyValue where
  | series (f : ℕ → ℝ)
  | exceptionValue (msg : String)

/-- Embedding of `EffectiveInterestRate.__getitem__` (lines 73-79).  Note the
source reads `return ValueError(...)` — not `raise` — so the unknown-type
branch returns the exception object as an ordinary value. -/
def EffectiveInterestRate.getitem (base_rate : ℕ → ℝ) (a : Account) : PyValue :=
  if pyUpper a.interest_rate_type = "FIXED" then
    PyValue.series (FixedEffectiveInterestRate.getitem a)
  else if pyUpper a.interest_rate_type = "FLOAT" then
    PyValue.series (FloatEffectiveInterestRate.getitem base_rate a)
  else
    PyValue.exceptionValue
      ("Invalid interest rate type: " ++ a.contract_id ++ ", " ++ a.interest_rate_type)

/-- Concrete account with an unrecognised `interest_rate_type`. -/
def acctC8 : Account :=
  { contract_id := "A1", outstanding_balance := 0, limit := 0,
    current_arrears := 0, contractual_payment := 0, contractual_freq := 12,
    interest_rate_type := "VARIABLE", interest_rate_freq := 12,
    fixed_rate := 0, spread := 0, payment_holiday_end_date := none,
    remaining_life := 1 }

/-! ## ECL composer (`ecl_model.py`, `ECLModel.__getitem__`) -/

/-- `df_t = cumprod(1 + eir) / (1 + eir[0])`. -/
def df_t (eir : ℕ → ℝ) (t : ℕ) : ℝ :=
  (∏ k ∈ Finset.range (t + 1), (1 + eir k)) / (1 + eir 0)

/-- `df_t0 = 1 / cumprod(1 + eir)`. -/
def df_t0 (eir : ℕ → ℝ) (t : ℕ) : ℝ :=
  1 / ∏ k ∈ Finset.range (t + 1), (1 + eir k)

/-- `marginal_ecl = pd * ead * lgd * df_t0`. -/
def marginal_ecl (pd ead lgd eir : ℕ → ℝ) (t : ℕ) : ℝ :=
  pd t * ead t * lgd t * df_t0 eir t

/-- `stage_2_ecl_t0 = marginal_ecl[::-1].cumsum()[::-1]` over the remaining
life `L` (sum of marginal ECL from `t` to the end). -/
def stage_2_ecl_t0 (pd ead lgd eir : ℕ → ℝ) (L t : ℕ) : ℝ :=
  ∑ k ∈ Finset.Ico t L, marginal_ecl pd ead lgd eir k

/-- `stage_2_ecl = stage_2_ecl_t0 * df_t`. -/
def stage_2_ecl (pd ead lgd eir : ℕ → ℝ) (L t : ℕ) : ℝ :=
  stage_2_ecl_t0 pd ead lgd eir L t * df_t eir t

/-- `stage_1_ecl_t0 = stage_2_ecl_t0 - stage_2_ecl_t0.shift(-12).fillna(0)`. -/
def stage_1_ecl_t0 (pd ead lgd eir : ℕ → ℝ) (L t : ℕ) : ℝ :=
  stage_2_ecl_t0 pd ead lgd eir L t
    - (if t + 12 < L then stage_2_ecl_t0 pd ead lgd eir L (t + 12) else 0)

/-- `stage_1_ecl = stage_1_ecl_t0 * df_t`. -/
def stage_1_ecl (pd ead lgd eir : ℕ → ℝ) (L t : ℕ) : ℝ :=
  stage_1_ecl_t0 pd ead lgd eir L t * df_t eir t

/-- `stage_3_ecl = ead * lgd`. -/
def stage_3_ecl (ead lgd : ℕ → ℝ) (t : ℕ) : ℝ := ead t * lgd t

/-- `ecl = P(S=1)*stage_1_ecl + P(S=2)*stage_2_ecl + P(S=3)*stage_3_ecl`.
Stage probabilities `sp t` are indexed `0,1,2` for stages 1-3 and `3` for WO. -/
def ecl (pd ead lgd eir : ℕ → ℝ) (sp : ℕ → Fin 4 → ℝ) (L t : ℕ) : ℝ :=
  sp t 0 * stage_1_ecl pd ead lgd eir L t
    + sp t 1 * stage_2_ecl pd ead lgd eir L t
    + sp t 2 * stage_3_ecl ead lgd t

/-- `exposure = ead * (P(S=1) + P(S=2) + P(S=3))`. -/
def exposure (ead : ℕ → ℝ) (sp : ℕ → Fin 4 → ℝ) (t : ℕ) : ℝ :=
  ead t * (sp t 0 + sp t 1 + sp t 2)

/-- IEEE float division as the source performs it: division by zero yields
NaN or ±inf, i.e. no real number — modelled as `none`. -/
def pdiv (a b : ℝ) : Option ℝ := if b = 0 then none else some (a / b)

/-- `coverage_ratio = ecl / exposure` (`ecl_model.py` line 83) — there is no
zero-exposure guard in the source. -/
def cr (pd ead lgd eir : ℕ → ℝ) (sp : ℕ → Fin 4 → ℝ) (L t : ℕ) : Option ℝ :=
  pdiv (ecl pd ead lgd eir sp L t) (exposure ead sp t)

/-- The all-zero vector input. -/
def zvec : ℕ → ℝ := fun _ => 0

/-- The all-zero stage-probability input. -/
def zsp : ℕ → Fin 4 → ℝ := fun _ _ => 0

/-- Stage probabilities putting all mass on stage 1. -/
def spC9 : ℕ → Fin 4 → ℝ := fun _ s => if s = 0 then 1 else 0

/-! ## Exposure at default (`exposure_at_default.py`) -/

/-- `EADAssumptions` (`assumptions.py` lines 158-167): the per-segment EAD
configuration record, including `default_penalty_pct` / `default_penalty_amt`
read from the `ead_default_penalty_pct` / `ead_default_penalty_amt` columns. -/
structure EADAssumptions where
  type : String
  exposure_at_default : ℝ
  ccf_method : String
  ccf : ℝ
  fees_fixed : ℝ
  fees_pct : ℝ
  prepayment_pct : ℝ
  default_penalty_pct : ℝ
  default_penalty_amt : ℝ

/-- Constructor state of `AmortisingExposureAtDefault` (the effective interest
rate model is passed separately to `getitem`). -/
structure AmortisingExposureAtDefault where
  fixed_fees : ℝ
  fees_pct : ℝ
  prepayment_pct : ℝ
  default_penalty_pct : ℝ
  default_penalty_amt : ℝ

/-- Constructor state of `BulletExposureAtDefault` (implemented in the module
but never constructed by `ExposureAtDefault.from_assumptions`). -/
structure BulletExposureAtDefault where
  fixed_fees : ℝ
  fees_pct : ℝ
  prepayment_pct : ℝ
  default_penalty_pct : ℝ
  default_penalty_amt : ℝ

/-- The EAD model variants of `exposure_at_default.py`. -/
inductive EADModel where
  | constant (exposure_at_default : ℝ)
  | amortising (m : AmortisingExposureAtDefault)
  | bullet (m : BulletExposureAtDefault)
  | ccf (ccf_method : String) (ccf : ℝ)

/-- Embedding of `ExposureAtDefault.from_assumptions` (lines 171-191).  The
dispatch has branches for CONSTANT, AMORTISING and CCF only; the AMORTISING
branch passes `fixed_fees`, `fees_pct` and `prepayment_pct` but not
`default_penalty_pct` / `default_penalty_amt`, which therefore keep their
constructor defaults `0.0`; every other type (including BULLET) raises
`ValueError`. -/
def ExposureAtDefault.from_assumptions (assum : EADAssumptions) :
    Except String EADModel :=
  if pyUpper assum.type = "CONSTANT" then
    Except.ok (EADModel.constant assum.exposure_at_default)
  else if pyUpper assum.type = "AMORTISING" then
    Except.ok (EADModel.amortising
      { fixed_fees := assum.fees_fixed, fees_pct := assum.fees_pct,
        prepayment_pct := assum.prepayment_pct,
        default_penalty_pct := 0, default_penalty_amt := 0 })
  else if pyUpper assum.type = "CCF" then
    Except.ok (EADModel.ccf assum.ccf_method assum.ccf)
  else
    Except.error ("Invalid EAD method: " ++ assum.type)

/-- `is_pmt_period` of `AmortisingExposureAtDefault.__getitem__` at position
`i` (the source's `t = i + 1`): a contractual payment falls due when
`(remaining_life - t) % (12 / contractual_freq) == 0` and the date is not in
the payment holiday. -/
def is_pmt_period (a : Account) (i : ℕ) : Bool :=
  decide ((a.remaining_life - (i + 1)) % (12 / a.contractual_freq) = 0)
    && (match a.payment_holiday_end_date with
        | none => true
        | some d => decide (d ≤ i))

/-- `pmt = contractual_payment * is_pmt_period`. -/
def am_pmt (a : Account) (i : ℕ) : ℝ :=
  a.contractual_payment * (if is_pmt_period a i then 1 else 0)

/-- `cf = pmt * (1 + prepayment_pct) - fixed_fees`. -/
def am_cf (m : AmortisingExposureAtDefault) (a : Account) (i : ℕ) : ℝ :=
  am_pmt a i * (1 + m.prepayment_pct) - m.fixed_fees

/-- `cum_cf_t = cumsum(cf * df_t0) / df_t0`. -/
def am_cum_cf (m : AmortisingExposureAtDefault) (a : Account) (eir : ℕ → ℝ)
    (i : ℕ) : ℝ :=
  (∑ j ∈ Finset.range (i + 1), am_cf m a j * df_t0 eir j) / df_t0 eir i

/-- `balance_t = balance / df_t0 - cum_cf_t`. -/
def am_balance (m : AmortisingExposureAtDefault) (a : Account) (eir : ℕ → ℝ)
    (i : ℕ) : ℝ :=
  a.outstanding_balance / df_t0 eir i - am_cum_cf m a eir i

/-- `fees_pct_amt = cumsum((balance_t + pmt) * fees_pct * df_t0) / df_t0`. -/
def am_fees_pct_amt (m : AmortisingExposureAtDefault) (a : Account)
    (eir : ℕ → ℝ) (i : ℕ) : ℝ :=
  (∑ j ∈ Finset.range (i + 1),
    (am_balance m a eir j + am_pmt a j) * m.fees_pct * df_t0 eir j) / df_t0 eir i

/-- `balance_t_pfees = maximum(balance_t + fees_pct_amt, 0)`. -/
def am_balance_pfees (m : AmortisingExposureAtDefault) (a : Account)
    (eir : ℕ → ℝ) (i : ℕ) : ℝ :=
  max (am_balance m a eir i + am_fees_pct_amt m a eir i) 0

/-- `n_pmts = cumsum(is_pmt_period)`. -/
def am_n_pmts (a : Account) (i : ℕ) : ℕ :=
  ∑ j ∈ Finset.range (i + 1), (if is_pmt_period a j then 1 else 0)

/-- The arrears vector of `AmortisingExposureAtDefault.__getitem__`
(`arrears_t`), `0` when `contractual_payment ≤ 0`. -/
def am_arrears (a : Account) (eir : ℕ → ℝ) (i : ℕ) : ℝ :=
  if a.contractual_payment > 0 then
    let remaining_allowance := max (a.contractual_payment * 3 - a.current_arrears) 0
    let remaining_allowance_t : ℤ := ⌈remaining_allowance / a.contractual_payment⌉
    min ((∑ j ∈ Finset.range (i + 1),
        a.contractual_payment
          * (if (am_n_pmts a j : ℝ) ≤ (remaining_allowance_t : ℝ) then 1 else 0)
          * (if is_pmt_period a j then 1 else 0) * df_t0 eir j) / df_t0 eir i)
      remaining_allowance
  else 0

/-- `AmortisingExposureAtDefault.__getitem__` (lines 101-133): the final EAD
vector `maximum((balance_t_pfees + arrears_t)*(1 + default_penalty_pct)
+ default_penalty_amt, 0)`. -/
def AmortisingExposureAtDefault.getitem (m : AmortisingExposureAtDefault)
    (eir : ℕ → ℝ) (a : Account) (i : ℕ) : ℝ :=
  max ((am_balance_pfees m a eir i + am_arrears a eir i)
    * (1 + m.default_penalty_pct) + m.default_penalty_amt) 0

/-- The adjusted discount factor of `BulletExposureAtDefault.__getitem__`:
`1 / cumprod(1 + eir + fees_pct - prepayment_pct)`. -/
def bullet_df_t0 (m : BulletExposureAtDefault) (eir : ℕ → ℝ) (i : ℕ) : ℝ :=
  1 / ∏ k ∈ Finset.range (i + 1), (1 + eir k + m.fees_pct - m.prepayment_pct)

/-- `BulletExposureAtDefault.__getitem__` (lines 56-70). -/
def BulletExposureAtDefault.getitem (m : BulletExposureAtDefault)
    (eir : ℕ → ℝ) (a : Account) (i : ℕ) : ℝ :=
  let cum_cf :=
    (∑ j ∈ Finset.range (i + 1), m.fixed_fees * bullet_df_t0 m eir j)
      / bullet_df_t0 m eir i
  let balance_t := max (a.outstanding_balance / bullet_df_t0 m eir i + cum_cf) 0
  max (balance_t * (1 + m.default_penalty_pct) + m.default_penalty_amt) 0

/-- AMORTISING assumptions with a non-zero `default_penalty_amt = 5`. -/
def assumC6 : EADAssumptions :=
  { type := "AMORTISING", exposure_at_default := 0, ccf_method := "METHOD-1",
    ccf := 0, fees_fixed := 0, fees_pct := 0, prepayment_pct := 0,
    default_penalty_pct := 0, default_penalty_amt := 5 }

/-- The amortising model actually constructed from `assumC6`: penalties 0. -/
def amC6 : AmortisingExposureAtDefault :=
  { fixed_fees := 0, fees_pct := 0, prepayment_pct := 0,
    default_penalty_pct := 0, default_penalty_amt := 0 }

/-- A trivial account (zero balance, zero payment, one month remaining). -/
def acctC6 : Account :=
  { contract_id := "A2", outstanding_balance := 0, limit := 0,
    current_arrears := 0, contractual_payment := 0, contractual_freq := 12,
    interest_rate_type := "FIXED", interest_rate_freq := 12,
    fixed_rate := 0, spread := 0, payment_holiday_end_date := none,
    remaining_life := 1 }

/-- BULLET assumptions. -/
def assumC7 : EADAssumptions :=
  { type := "BULLET", exposure_at_default := 0, ccf_method := "METHOD-1",
    ccf := 0, fees_fixed := 0, fees_pct := 0, prepayment_pct := 0,
    default_penalty_pct := 0, default_penalty_amt := 0 }

/-! ## Transition-matrix series (`transition_matrix.py`, `TransitionMatrix`) -/

/-- Square real matrices, the elements of a `TransitionMatrix` series. -/
abbrev Mat (m : ℕ) := Matrix (Fin m) (Fin m) ℝ

/-- Embedding of `TransitionMatrix.matrix_cumulative_prod(l, return_list=True)`
(lines 154-165): `reduce(lambda a, x: a + [a[-1] @ x] if a else [x], l, [])`. -/
def matrix_cumulative_prod {m : ℕ} (l : List (Mat m)) : List (Mat m) :=
  l.foldl (fun a x => if a.isEmpty then [x] else a ++ [a.getLastD 1 * x]) []

/-- Embedding of `TransitionMatrix.get_cumulative(idx, return_list=True)`
(lines 129-151) on the index positions `0, …, L-1`: the identity is prepended
and the last marginal matrix dropped (`append(i, stack(self[idx].values)[:-1])`)
before taking cumulative products. -/
def get_cumulative {m : ℕ} (M : ℕ → Mat m) (L : ℕ) : List (Mat m) :=
  matrix_cumulative_prod ((1 : Mat m) :: ((List.range L).map M).dropLast)

/-- The mathematical prefix product `P_{0→t} = M 0 * ⋯ * M (t-1)`. -/
def cumProd {m : ℕ} (M : ℕ → Mat m) (t : ℕ) : Mat m :=
  ((List.range t).map M).prod

/-- Embedding of `TransitionMatrixProbabilityOfDefault.__getitem__`
(`probability_of_default.py` lines 92-104): at horizon `t`, the sum over the
non-default, non-write-off states `j` (`:default_state` with
`default_state = -2`, i.e. `j < D`) of the probability of being in `j` at `t`
(from the cumulative product list) times the one-month `j → default`
probability of `M t`. -/
def TransitionMatrixProbabilityOfDefault.getitem {m : ℕ} (M : ℕ → Mat m)
    (D r : Fin m) (L t : ℕ) : ℝ :=
  ∑ j ∈ Finset.univ.filter (fun j : Fin m => (j : ℕ) < (D : ℕ)),
    ((get_cumulative M L).getD t 1) r j * (M t) j D

/-- Concrete constant 3×3 PiT series for the C2 counterexample: states
`{0, default = 1, WO = 2}`; the default row `[1/5, 3/10, 1/2]` is not
absorbing (cure mass `1/5`, write-off mass `1/2`). -/
def McC2 : ℕ → Mat 3 :=
  fun _ => !![1/2, 1/2, 0; 1/5, 3/10, 1/2; 0, 0, 1]

/-! ## Stage probabilities (`stage_probability.py`, `StageProbability`) -/

/-- Embedding of `StageProbability.get_stage_probabilities` (lines 35-47) at
horizon `t < L` for origination rating `R` and current rating `r`: row `t` of
the matrix obtained by stacking `[:, r, :]` of the cumulative-product list and
inserting at position `0` a zero row with a `1` at `r`
(`cumulative_probabilities[0, current_rating] = 1`); the stage probability is
the sum of that row over the stage map's column set. -/
def get_stage_probabilities {m : ℕ} (M : ℕ → Mat m)
    (sm : ℕ → Fin 4 → Finset (Fin m)) (L : ℕ) (R : ℕ) (r : Fin m)
    (t : ℕ) (s : Fin 4) : ℝ :=
  ∑ j ∈ sm R s,
    (if t = 0 then Function.update (fun _ => (0 : ℝ)) r 1 j
     else ((get_cumulative M L).getD (t - 1) 1) r j)

/-- A row-stochastic matrix: entries non-negative, every row sums to `1`. -/
def RowStochastic {m : ℕ} (A : Mat m) : Prop :=
  (∀ i j, 0 ≤ A i j) ∧ ∀ i, ∑ j, A i j = 1

/-- Concrete constant row-stochastic 2×2 series for the C3 witness. -/
def MC3 : ℕ → Mat 2 := fun _ => !![1/2, 1/2; 0, 1]

/-- Concrete stage map for the C3 witness: stage 1 gets rating `0`, WO gets
rating `1`, stages 2 and 3 are empty — a partition of the rating universe. -/
def smC3 : ℕ → Fin 4 → Finset (Fin 2) :=
  fun _ s => if s = 0 then {0} else if s = 3 then {1} else ∅

/-! ## TTC → PiT transformation (`TransitionMatrix.from_assumption`, METHOD-1) -/

/-- The standard normal density (scipy's `norm.pdf`). -/
def normPDF (t : ℝ) : ℝ := ProbabilityTheory.gaussianPDFReal 0 1 t

/-- The standard normal CDF (scipy's `norm.cdf`). -/
def normCDF (x : ℝ) : ℝ := ∫ t in Set.Iic x, normPDF t

/-- The standard normal quantile function on `(0, 1)` (scipy's `norm.ppf`). -/
def normPPF (c : ℝ) : ℝ := Function.invFun normCDF c

/-- The composite `norm.cdf((norm.ppf(c) - shift) / scale)` as evaluated by
scipy on a cumulative probability `c ∈ [0, 1]`: `ppf(0) = -inf` and
`ppf(1) = +inf` propagate through the affine map (for `scale > 0`) and `cdf`
sends them to `0` and `1`. -/
def pit_entry (c shift scale : ℝ) : ℝ :=
  if c ≤ 0 then 0 else if 1 ≤ c then 1
  else normCDF ((normPPF c - shift) / scale)

/-- The clipping step `x[x < 0] = 0` of `standardise`. -/
def clip0 {n : ℕ} (x : Mat n) : Mat n :=
  Matrix.of fun i j => if x i j < 0 then 0 else x i j

/-- `standardise` of `TransitionMatrix.from_assumption` (lines 195-198):
clip negatives, then `abs(x) / sum(abs(x), axis=1)`. -/
def standardise {n : ℕ} (x : Mat n) : Mat n :=
  Matrix.of fun i j => |clip0 x i j| / ∑ k, |clip0 x i k|

/-- The clipped reverse-cumulative matrix `cttc` (lines 204-206):
`flip(cumsum(flip(ttc)))` is the upper-tail sum `Σ_{k ≥ j}`, then entries
above `1` are set to `1` and entries below `0` to `0`. -/
def cttcM {n : ℕ} (x : Mat n) : Mat n :=
  Matrix.of fun i j => max (min (∑ k ∈ Finset.Ici j, standardise x i k) 1) 0

/-- The PiT cumulative entry of METHOD-1 (lines 208-212):
`Φ(D - z√ρ)` when `calibrated`, `Φ((D - z√ρ)/√(1-ρ))` otherwise, where
`D = Φ⁻¹(cttc)`. -/
def m1_cum_entry {n : ℕ} (ttc : Mat n) (rho : ℝ) (z : ℕ → ℝ)
    (calibrated : Bool) (t : ℕ) (i j : Fin n) : ℝ :=
  if calibrated then pit_entry (cttcM ttc i j) (z t * Real.sqrt rho) 1
  else pit_entry (cttcM ttc i j) (z t * Real.sqrt rho) (Real.sqrt (1 - rho))

/-- Embedding of `TransitionMatrix.from_assumption` under `METHOD-1`
(lines 195-233): the marginal PiT matrix at time `t` is the negated
difference along each row of the PiT cumulative matrix with a `0` appended
(`-diff(..., append=0)`). -/
def TransitionMatrix.from_assumption_m1 {n : ℕ} (ttc : Mat n) (rho : ℝ)
    (z : ℕ → ℝ) (calibrated : Bool) : ℕ → Mat n :=
  fun t => Matrix.of fun i j =>
    m1_cum_entry ttc rho z calibrated t i j
      - (if h : (j : ℕ) + 1 < n then
          m1_cum_entry ttc rho z calibrated t i ⟨(j : ℕ) + 1, h⟩
        else 0)

/-- Concrete row-stochastic 2×2 TTC matrix for the C4 witness. -/
def ttcC4 : Mat 2 := !![1/2, 1/2; 1/4, 3/4]

/-! ## Theorems -/

/-- C1 (counterexample): the claim says the default row of the augmented matrix
is zero everywhere except at `cure_state`, the default diagonal and the WO
column.  For the concrete 3×3 matrix `xC1` with `cure_state = 0`, the default
row entry at column `1` (none of the three special columns) is `1/5 ≠ 0`:
`add_write_off` copies the input default row and only overwrites its diagonal. -/
theorem add_write_off_offdiag_nonzero :
    add_write_off 3 xC1 (1/2) 0 2 2 1 ≠ 0 := by
  have h : add_write_off 3 xC1 (1/2) 0 2 2 1 = 1/5 := by
    simp [add_write_off, updEntry, xC1]
  rw [h]; norm_num

/-- C1 (amended): `add_write_off` returns an `(n+1) × (n+1)` matrix whose
default row equals the input default row except that the diagonal is
overwritten by `s = exp(-(μ_c + μ_w))`, `c = (1-s)·p_c` is added at
`cure_state`, and `w = 1-s-c` is placed in the new WO column, where
`μ_w = 1/TTS` and `μ_c = μ_w·p_c/(1-p_c)`; the WO row is the unit vector on
WO.  (The row is zero outside the three special entries only when the input
default row is the unit vector on default.) -/
theorem add_write_off_spec (n : ℕ) (x : ℕ → ℕ → ℝ) (pcure : ℝ) (cure_state : ℕ)
    (tts : ℝ) (hcure : cure_state < n - 1) :
    (add_write_off n x pcure cure_state tts) (n-1) cure_state
        = x (n-1) cure_state + wo_c pcure tts
    ∧ (add_write_off n x pcure cure_state tts) (n-1) (n-1) = wo_s pcure tts
    ∧ (add_write_off n x pcure cure_state tts) (n-1) n = wo_w pcure tts
    ∧ wo_s pcure tts = Real.exp (-(wo_mu_c pcure tts + wo_mu_w tts))
    ∧ wo_mu_c pcure tts = wo_mu_w tts * pcure / (1 - pcure)
    ∧ wo_c pcure tts = (1 - wo_s pcure tts) * pcure
    ∧ wo_w pcure tts = 1 - wo_s pcure tts - wo_c pcure tts
    ∧ (∀ j, j < n → j ≠ cure_state → j ≠ n - 1 →
        (add_write_off n x pcure cure_state tts) (n-1) j = x (n-1) j)
    ∧ (∀ j, j < n → (add_write_off n x pcure cure_state tts) n j = 0)
    ∧ (add_write_off n x pcure cure_state tts) n n = 1 := by
  have hn : 2 ≤ n := by omega
  have h1 : ¬ (n - 1 = n) := by omega
  have h2 : ¬ (cure_state = n) := by omega
  have h2' : ¬ (n = cure_state) := by omega
  have h3 : ¬ (cure_state = n - 1) := by omega
  have h3' : ¬ (n - 1 = cure_state) := by omega
  have h4 : ¬ (n = n - 1) := by omega
  have h5 : n - 1 < n := by omega
  have h6 : cure_state < n := by omega
  have h7 : ¬ (n < n) := by omega
  refine ⟨?_, ?_, ?_, rfl, ?_, rfl, rfl, ?_, ?_, ?_⟩
  · simp [add_write_off, updEntry, h1, h2, h3, h3', h5, h6]
  · simp [add_write_off, updEntry, h1, h3, h3']
  · simp [add_write_off, updEntry, h1, h2, h2', h3, h3', h4, h7]
  · have hnum : wo_mu_w tts - (1 - pcure) * wo_mu_w tts = wo_mu_w tts * pcure := by
      ring
    rw [wo_mu_c, hnum]
  · intro j hj hjc hjd
    have hjn : ¬ (j = n) := by omega
    simp [add_write_off, updEntry, h1, hjc, hjd, hjn, h5, hj]
  · intro j hj
    have hjn : ¬ (j = n) := by omega
    simp [add_write_off, updEntry, h4, hjn, h7]
  · simp [add_write_off, updEntry]

/-- C1 witness: the amended theorem applied at the concrete input `xC1`,
`p_c = 1/2`, `cure_state = 0`, `TTS = 2`. -/
theorem add_write_off_spec_witness :
    (0 : ℕ) < 3 - 1
    ∧ ((add_write_off 3 xC1 (1/2) 0 2) (3-1) 0 = xC1 (3-1) 0 + wo_c (1/2) 2
      ∧ (add_write_off 3 xC1 (1/2) 0 2) (3-1) (3-1) = wo_s (1/2) 2
      ∧ (add_write_off 3 xC1 (1/2) 0 2) (3-1) 3 = wo_w (1/2) 2
      ∧ wo_s (1/2) 2 = Real.exp (-(wo_mu_c (1/2) 2 + wo_mu_w 2))
      ∧ wo_mu_c (1/2) 2 = wo_mu_w 2 * (1/2) / (1 - 1/2)
      ∧ wo_c (1/2) 2 = (1 - wo_s (1/2) 2) * (1/2)
      ∧ wo_w (1/2) 2 = 1 - wo_s (1/2) 2 - wo_c (1/2) 2
      ∧ (∀ j, j < 3 → j ≠ 0 → j ≠ 3 - 1 →
          (add_write_off 3 xC1 (1/2) 0 2) (3-1) j = xC1 (3-1) j)
      ∧ (∀ j, j < 3 → (add_write_off 3 xC1 (1/2) 0 2) 3 j = 0)
      ∧ (add_write_off 3 xC1 (1/2) 0 2) 3 3 = 1) :=
  ⟨by norm_num, add_write_off_spec 3 xC1 (1/2) 0 2 (by norm_num)⟩

/-- C10: `add_write_off` modifies only the default row and the appended WO row:
every non-default row `i < n-1` of the output equals row `i` of the input with
a `0` appended in the new WO column. -/
theorem add_write_off_frame (n : ℕ) (x : ℕ → ℕ → ℝ) (pcure : ℝ)
    (cure_state : ℕ) (tts : ℝ) (i : ℕ) (hi : i < n - 1) :
    (∀ j, j < n → (add_write_off n x pcure cure_state tts) i j = x i j)
    ∧ (add_write_off n x pcure cure_state tts) i n = 0 := by
  have hi1 : ¬ (i = n - 1) := by omega
  have hi2 : ¬ (i = n) := by omega
  have hin : i < n := by omega
  constructor
  · intro j hj
    simp [add_write_off, updEntry, hi1, hi2, hin, hj]
  · have hnn : ¬ (n < n) := by omega
    simp [add_write_off, updEntry, hi1, hi2, hnn]

/-- C10 witness: the frame theorem applied to the concrete matrix `xC1` at
row `0`. -/
theorem add_write_off_frame_witness :
    (0 : ℕ) < 3 - 1
    ∧ ((∀ j, j < 3 → (add_write_off 3 xC1 (1/2) 0 2) 0 j = xC1 0 j)
      ∧ (add_write_off 3 xC1 (1/2) 0 2) 0 3 = 0) :=
  ⟨by norm_num, add_write_off_frame 3 xC1 (1/2) 0 2 0 (by norm_num)⟩

/-- Helper: rows of a single scenario block filtered on a key absent from the
remaining key list contribute nothing. -/
theorem weight_rows_filter_not_mem {K α : Type} [DecidableEq K] (name : String)
    (row : K → α → ℝ) (w : String → ℝ) (keys : List K) (k : K) (hk : k ∉ keys) :
    (weight_rows w (keys.map (fun k2 => (name, k2, row k2)))).filter
      (fun r => decide (r.2.1 = k)) = [] := by
  refine List.filter_eq_nil_iff.mpr ?_
  intro r hr
  rw [weight_rows, List.map_map] at hr
  obtain ⟨k2, hk2, hre⟩ := List.mem_map.mp hr
  subst hre
  simp only [Function.comp, decide_eq_true_eq]
  exact fun h => hk (h ▸ hk2)

/-- Helper: the filtered weighted sum over a single scenario block picks out
exactly that scenario's row at the key `k`. -/
theorem weight_rows_filter_block {K α : Type} [DecidableEq K] (name : String)
    (row : K → α → ℝ) (w : String → ℝ) (keys : List K) (k : K) (f : α)
    (hk : k ∈ keys) (hnd : keys.Nodup) :
    (((weight_rows w (keys.map (fun k2 => (name, k2, row k2)))).filter
      (fun r => decide (r.2.1 = k))).map (fun r => r.2.2 f)).sum
      = w name * row k f := by
  induction keys with
  | nil => cases hk
  | cons k0 ks ih =>
      rcases List.nodup_cons.mp hnd with ⟨hk0nm, hndks⟩
      by_cases h0 : k0 = k
      · subst h0
        have hnil := weight_rows_filter_not_mem name row w ks k0 hk0nm
        simp only [weight_rows, List.map_map] at hnil
        simp [weight_rows, List.map_map, List.filter_cons, hnil]
      · have hkks : k ∈ ks := by
          rcases List.mem_cons.mp hk with h | h
          · exact absurd h.symm h0
          · exact h
        have ih2 := ih hkks hndks
        simp only [weight_rows, List.map_map] at ih2
        simp [weight_rows, List.map_map, List.filter_cons, h0, ih2]

/-- C5: for every collection of scenarios with weights and per-scenario rows
keyed by `(contract_id, T, forecast_reporting_date)`, the weighted composite
produced by `calculate_weighted_scenario` on the executor's row stream
contains, at every key, the field-wise linear combination `Σ_s w_s · row_s`,
and is tagged with scenario name `"weighted"`. -/
theorem calculate_weighted_scenario_spec {K α : Type} [DecidableEq K]
    (scenarios : List (String × (K → α → ℝ))) (keys : List K)
    (weights : String → ℝ) (k : K) (f : α)
    (hk : k ∈ keys) (hnd : keys.Nodup) :
    (calculate_weighted_scenario (scenario_rows scenarios keys) weights).1
        = "weighted"
    ∧ (calculate_weighted_scenario (scenario_rows scenarios keys) weights).2 k f
        = (scenarios.map (fun s => weights s.1 * s.2 k f)).sum := by
  refine ⟨rfl, ?_⟩
  induction scenarios with
  | nil => rfl
  | cons s ss ih =>
      have hblock := weight_rows_filter_block s.1 s.2 weights keys k f hk hnd
      simp only [calculate_weighted_scenario, scenario_rows, List.flatMap_cons] at *
      rw [show weight_rows weights
            (keys.map (fun k2 => (s.1, k2, s.2 k2))
              ++ ss.flatMap (fun s2 => keys.map (fun k2 => (s2.1, k2, s2.2 k2))))
          = weight_rows weights (keys.map (fun k2 => (s.1, k2, s.2 k2)))
            ++ weight_rows weights
                (ss.flatMap (fun s2 => keys.map (fun k2 => (s2.1, k2, s2.2 k2))))
        from List.map_append _ _ _]
      rw [List.filter_append, List.map_append, List.sum_append, hblock,
        List.map_cons, List.sum_cons, ih]

/-- C5 witness: two scenarios with weights `0.6 / 0.4`, two keys; the theorem
applied at key `0`. -/
theorem calculate_weighted_scenario_spec_witness :
    (0 : ℕ) ∈ ([0, 1] : List ℕ) ∧ ([0, 1] : List ℕ).Nodup
    ∧ ((calculate_weighted_scenario (scenario_rows scenC5 [0, 1]) wC5).1
          = "weighted"
      ∧ (calculate_weighted_scenario (scenario_rows scenC5 [0, 1]) wC5).2 0 0
          = (scenC5.map (fun s => wC5 s.1 * s.2 0 0)).sum) :=
  ⟨by simp, by simp,
    calculate_weighted_scenario_spec scenC5 [0, 1] wC5 0 0 (by simp) (by simp)⟩

/-- C8: evaluating `EffectiveInterestRate.__getitem__` on an account whose
`interest_rate_type` is neither FIXED nor FLOAT does *not* raise: the source
reads `return ValueError(...)`, so the call returns the exception object as a
normal value.  The claim (and the spec) say it raises `InvalidConfig`. -/
theorem eir_getitem_returns_exception :
    EffectiveInterestRate.getitem (fun _ => 0) acctC8
      = PyValue.exceptionValue ("Invalid interest rate type: " ++ "A1" ++ ", " ++ "VARIABLE") := by
  have h1 : pyUpper "VARIABLE" ≠ "FIXED" := by decide
  have h2 : pyUpper "VARIABLE" ≠ "FLOAT" := by decide
  simp only [EffectiveInterestRate.getitem, acctC8]
  rw [if_neg h1, if_neg h2]

/-- C9 (counterexample): the claim says the coverage ratio equals `0` whenever
`exposure_t = 0`.  On the all-zero account vectors the exposure at `t = 0` is
`0`, and the source computes `ecl / exposure` with no zero-guard, producing a
non-number (NaN), not `0`. -/
theorem cr_zero_exposure_not_zero :
    cr zvec zvec zvec zvec zsp 1 0 ≠ some 0 := by
  simp [cr, pdiv, exposure, zvec, zsp]

/-- C9 (amended): the coverage ratio emitted by the ECL composer equals
`ecl_t / exposure_t` whenever `exposure_t ≠ 0`; when `exposure_t = 0` the
unguarded division produces NaN/±inf (no real number), not `0`. -/
theorem cr_eq_ecl_div_exposure (pd ead lgd eir : ℕ → ℝ) (sp : ℕ → Fin 4 → ℝ)
    (L t : ℕ) (h : exposure ead sp t ≠ 0) :
    cr pd ead lgd eir sp L t
      = some (ecl pd ead lgd eir sp L t / exposure ead sp t) := by
  simp [cr, pdiv, h]

/-- C9 witness: a concrete account with unit EAD and all mass on stage 1 has
exposure `1 ≠ 0` at `t = 0`; the theorem applied there. -/
theorem cr_eq_ecl_div_exposure_witness :
    exposure (fun _ => 1) spC9 0 ≠ 0
    ∧ cr zvec (fun _ => 1) zvec zvec spC9 1 0
      = some (ecl zvec (fun _ => 1) zvec zvec spC9 1 0
          / exposure (fun _ => 1) spC9 0) :=
  ⟨by norm_num [exposure, spC9, show (1 : Fin 4) ≠ 0 by decide,
      show (2 : Fin 4) ≠ 0 by decide],
    cr_eq_ecl_div_exposure zvec (fun _ => 1) zvec zvec spC9 1 0
      (by norm_num [exposure, spC9, show (1 : Fin 4) ≠ 0 by decide,
        show (2 : Fin 4) ≠ 0 by decide])⟩

/-- C6: the claim says the EAD model built from the segment's EAD assumptions
applies `default_penalty_pct` / `default_penalty_amt` *taken from the
assumptions*.  `ExposureAtDefault.from_assumptions` does not forward them, so
the built model uses `0` for both: on `assumC6` (penalty amount `5`) and the
trivial account the built model returns `0` at `t = 0`, while the claimed
formula with the assumptions' penalties gives `5`. -/
theorem ead_from_assumptions_drops_penalties :
    ExposureAtDefault.from_assumptions assumC6 = Except.ok (EADModel.amortising amC6)
    ∧ AmortisingExposureAtDefault.getitem amC6 zvec acctC6 0 = 0
    ∧ max ((am_balance_pfees amC6 acctC6 zvec 0 + am_arrears acctC6 zvec 0)
        * (1 + assumC6.default_penalty_pct) + assumC6.default_penalty_amt) 0 = 5 := by
  refine ⟨rfl, ?_, ?_⟩
  · norm_num [AmortisingExposureAtDefault.getitem, am_balance_pfees, am_balance,
      am_fees_pct_amt, am_cum_cf, am_cf, am_pmt, am_arrears, df_t0, zvec,
      acctC6, amC6, Finset.sum_range_one, Finset.prod_range_one]
  · norm_num [am_balance_pfees, am_balance, am_fees_pct_amt, am_cum_cf, am_cf,
      am_pmt, am_arrears, df_t0, zvec, acctC6, amC6, assumC6,
      Finset.sum_range_one, Finset.prod_range_one]

/-- C7: the claim says `ExposureAtDefault.from_assumptions` returns a model
for every type in `{CONSTANT, AMORTISING, BULLET, CCF}` and in particular the
bullet model for BULLET.  The dispatch has no BULLET branch — although
`BulletExposureAtDefault` is fully implemented in the module — so BULLET
falls through to `raise ValueError`. -/
theorem ead_from_assumptions_bullet_raises :
    ExposureAtDefault.from_assumptions assumC7
      = Except.error ("Invalid EAD method: " ++ "BULLET") := by
  rfl

/-- Helper: one step of the cumulative-product fold appends the running
product times the new matrix. -/
theorem matrix_cumulative_prod_concat {m : ℕ} (l : List (Mat m)) (x : Mat m) :
    matrix_cumulative_prod (l ++ [x])
      = matrix_cumulative_prod l ++ [(matrix_cumulative_prod l).getLastD 1 * x] := by
  rw [matrix_cumulative_prod, matrix_cumulative_prod, List.foldl_append]
  set A := List.foldl
    (fun a x => if a.isEmpty then [x] else a ++ [a.getLastD 1 * x])
    ([] : List (Mat m)) l with hA
  simp only [List.foldl_cons, List.foldl_nil]
  by_cases h : A.isEmpty
  · rw [List.isEmpty_iff] at h
    rw [h]
    simp
  · simp [h]

/-- Helper: the cumulative-product list has the same length as its input. -/
theorem matrix_cumulative_prod_length {m : ℕ} (l : List (Mat m)) :
    (matrix_cumulative_prod l).length = l.length := by
  induction l using List.reverseRecOn with
  | nil => rfl
  | append_singleton l x ih =>
      rw [matrix_cumulative_prod_concat]
      simp [ih]

/-- Helper: the last element of the cumulative-product list is the product. -/
theorem matrix_cumulative_prod_getLastD {m : ℕ} (l : List (Mat m)) :
    (matrix_cumulative_prod l).getLastD 1 = l.prod := by
  induction l using List.reverseRecOn with
  | nil => rfl
  | append_singleton l x ih =>
      rw [matrix_cumulative_prod_concat, List.getLastD_concat, ih,
        List.prod_append]
      simp

/-- Helper: element `t` of the cumulative-product list is the product of the
first `t + 1` input matrices. -/
theorem matrix_cumulative_prod_getD {m : ℕ} (l : List (Mat m)) (t : ℕ)
    (ht : t < l.length) :
    (matrix_cumulative_prod l).getD t 1 = (l.take (t + 1)).prod := by
  induction l using List.reverseRecOn with
  | nil => cases ht
  | append_singleton l x ih =>
      rw [matrix_cumulative_prod_concat]
      by_cases h : t < l.length
      · rw [List.getD_append _ _ _ _
            (by rw [matrix_cumulative_prod_length]; exact h)]
        rw [ih h, List.take_append_of_le_length (by omega)]
      · have hteq : t = l.length := by
          simp only [List.length_append, List.length_singleton] at ht
          omega
        subst hteq
        rw [List.getD_append_right _ _ _ _
            (by rw [matrix_cumulative_prod_length])]
        rw [matrix_cumulative_prod_length]
        simp only [Nat.sub_self, List.getD_cons_zero]
        rw [matrix_cumulative_prod_getLastD]
        rw [List.take_of_length_le (by simp), List.prod_append]
        simp

/-- Helper: element `t` of `get_cumulative` is the prefix product `P_{0→t}`. -/
theorem get_cumulative_getD {m : ℕ} (M : ℕ → Mat m) (L t : ℕ) (ht : t < L) :
    (get_cumulative M L).getD t 1 = cumProd M t := by
  obtain ⟨K, rfl⟩ : ∃ K, L = K + 1 := ⟨L - 1, by omega⟩
  rw [get_cumulative]
  have hdrop : ((List.range (K + 1)).map M).dropLast = (List.range K).map M := by
    rw [List.range_succ, List.map_append]
    simp
  rw [hdrop]
  have hlen : t < ((1 : Mat m) :: (List.range K).map M).length := by
    simp only [List.length_cons, List.length_map, List.length_range]
    omega
  rw [matrix_cumulative_prod_getD _ t hlen, List.take_succ_cons,
    ← List.map_take, List.take_range, min_eq_left (by omega : t ≤ K),
    List.prod_cons, one_mul, cumProd]

/-- C2 (counterexample): the claim says the marginal monthly PD equals
`c_t - c_{t-1}` with `c_t = P_{0→t}[r, default]`.  On the concrete series
`McC2` (default not absorbing because of cure and write-off), the PD model
returns `1/4` at horizon `1` while the cumulative-difference is
`2/5 - 1/2 = -1/10`. -/
theorem tmpd_not_cumulative_difference :
    TransitionMatrixProbabilityOfDefault.getitem McC2 1 0 2 1
      ≠ cumProd McC2 2 0 1 - cumProd McC2 1 0 1 := by
  have hr1 : List.range 1 = [0] := rfl
  have hfil : Finset.univ.filter (fun j : Fin 3 => (j : ℕ) < ((1 : Fin 3) : ℕ))
      = {0} := by decide
  have h1 : TransitionMatrixProbabilityOfDefault.getitem McC2 1 0 2 1 = 1/4 := by
    rw [TransitionMatrixProbabilityOfDefault.getitem,
      get_cumulative_getD McC2 2 1 (by norm_num), hfil, Finset.sum_singleton]
    rw [cumProd, hr1]
    norm_num [McC2]
  have h2 : cumProd McC2 2 0 1 = 2/5 := by
    have hr2 : List.range 2 = [0, 1] := rfl
    rw [cumProd, hr2]
    norm_num [Matrix.mul_apply, Fin.sum_univ_three, McC2]
  have h3 : cumProd McC2 1 0 1 = 1/2 := by
    rw [cumProd, hr1]
    norm_num [McC2]
  rw [h1, h2, h3]
  norm_num

/-- C2 (amended): the marginal monthly PD returned by
`TransitionMatrixProbabilityOfDefault` at horizon `t` equals
`Σ_{j < default} P_{0→t}[r, j] · P_t[j, default]` — the probability of
surviving (being in a non-default, non-write-off state) at `t` times the
one-month hazard into default — which equals `c_t - c_{t-1}` only when
default is absorbing. -/
theorem tmpd_marginal_pd_eq {m : ℕ} (M : ℕ → Mat m) (D r : Fin m) (L t : ℕ)
    (ht : t < L) :
    TransitionMatrixProbabilityOfDefault.getitem M D r L t
      = ∑ j ∈ Finset.univ.filter (fun j : Fin m => (j : ℕ) < (D : ℕ)),
          cumProd M t r j * (M t) j D := by
  rw [TransitionMatrixProbabilityOfDefault.getitem,
    get_cumulative_getD M L t ht]

/-- C2 witness: the amended theorem applied to `McC2` at horizon `1 < 2`. -/
theorem tmpd_marginal_pd_eq_witness :
    (1 : ℕ) < 2
    ∧ TransitionMatrixProbabilityOfDefault.getitem McC2 1 0 2 1
      = ∑ j ∈ Finset.univ.filter (fun j : Fin 3 => (j : ℕ) < ((1 : Fin 3) : ℕ)),
          cumProd McC2 1 0 j * (McC2 1) j 1 :=
  ⟨by norm_num, tmpd_marginal_pd_eq McC2 1 0 2 1 (by norm_num)⟩

/-- Helper: the identity matrix is row-stochastic. -/
theorem rowStochastic_one {m : ℕ} : RowStochastic (1 : Mat m) := by
  constructor
  · intro i j
    by_cases h : i = j <;> simp [Matrix.one_apply, h]
  · intro i
    simp [Matrix.one_apply]

/-- Helper: the product of row-stochastic matrices is row-stochastic. -/
theorem RowStochastic.mul {m : ℕ} {A B : Mat m} (hA : RowStochastic A)
    (hB : RowStochastic B) : RowStochastic (A * B) := by
  constructor
  · intro i j
    rw [Matrix.mul_apply]
    exact Finset.sum_nonneg fun k _ => mul_nonneg (hA.1 i k) (hB.1 k j)
  · intro i
    simp only [Matrix.mul_apply]
    rw [Finset.sum_comm]
    calc ∑ k, ∑ j, A i k * B k j
        = ∑ k, A i k * ∑ j, B k j := by
          simp [Finset.mul_sum]
      _ = ∑ k, A i k := by simp [hB.2]
      _ = 1 := hA.2 i

/-- Helper: prefix products of a row-stochastic series are row-stochastic. -/
theorem rowStochastic_cumProd {m : ℕ} (M : ℕ → Mat m)
    (hM : ∀ k, RowStochastic (M k)) (t : ℕ) : RowStochastic (cumProd M t) := by
  induction t with
  | zero => simpa [cumProd] using rowStochastic_one
  | succ t ih =>
      have hstep : cumProd M (t + 1) = cumProd M t * M t := by
        rw [cumProd, cumProd, List.range_succ, List.map_append,
          List.prod_append]
        simp
      rw [hstep]
      exact ih.mul (hM t)

/-- C3: for every row-stochastic PiT matrix series (the invariant of the
series the engine produces) and every stage map whose four sets partition the
rating universe (each rating counted exactly once), the four stage
probabilities at every horizon `t < L` are each in `[0, 1]` and sum to `1`
within `1e-9`. -/
theorem get_stage_probabilities_valid {m : ℕ} (M : ℕ → Mat m)
    (sm : ℕ → Fin 4 → Finset (Fin m)) (L R : ℕ) (r : Fin m) (t : ℕ)
    (hM : ∀ k, RowStochastic (M k))
    (hpart : ∀ j : Fin m, ∑ s : Fin 4, (if j ∈ sm R s then (1 : ℝ) else 0) = 1)
    (ht : t < L) :
    (∀ s : Fin 4, 0 ≤ get_stage_probabilities M sm L R r t s
        ∧ get_stage_probabilities M sm L R r t s ≤ 1)
    ∧ |(∑ s : Fin 4, get_stage_probabilities M sm L R r t s) - 1| ≤ 1e-9 := by
  set v : Fin m → ℝ := fun j =>
    if t = 0 then Function.update (fun _ => (0 : ℝ)) r 1 j
    else ((get_cumulative M L).getD (t - 1) 1) r j with hv
  have hrow : (∀ j, 0 ≤ v j) ∧ ∑ j, v j = 1 := by
    by_cases h0 : t = 0
    · subst h0
      constructor
      · intro j
        by_cases hjr : j = r <;> simp [hv, Function.update_apply, hjr]
      · simp [hv, Function.update_apply]
    · have ht1 : t - 1 < L := by omega
      have hcp := rowStochastic_cumProd M hM (t - 1)
      have hveq : v = fun j => cumProd M (t - 1) r j := by
        funext j
        simp only [hv, if_neg h0, get_cumulative_getD M L (t - 1) ht1]
      rw [hveq]
      exact ⟨fun j => hcp.1 r j, hcp.2 r⟩
  have hpi : ∀ s, get_stage_probabilities M sm L R r t s = ∑ j ∈ sm R s, v j :=
    fun s => rfl
  constructor
  · intro s
    constructor
    · rw [hpi]
      exact Finset.sum_nonneg fun j _ => hrow.1 j
    · rw [hpi]
      calc ∑ j ∈ sm R s, v j
          ≤ ∑ j, v j :=
            Finset.sum_le_sum_of_subset_of_nonneg (Finset.subset_univ _)
              (fun j _ _ => hrow.1 j)
        _ = 1 := hrow.2
  · have hsum : ∑ s : Fin 4, get_stage_probabilities M sm L R r t s = 1 := by
      simp only [hpi]
      calc ∑ s : Fin 4, ∑ j ∈ sm R s, v j
          = ∑ s : Fin 4, ∑ j, (if j ∈ sm R s then (1 : ℝ) else 0) * v j := by
            refine Finset.sum_congr rfl fun s _ => ?_
            simp [ite_mul, one_mul, zero_mul, Finset.sum_ite_mem]
        _ = ∑ j, (∑ s : Fin 4, (if j ∈ sm R s then (1 : ℝ) else 0)) * v j := by
            rw [Finset.sum_comm]
            exact Finset.sum_congr rfl fun j _ => (Finset.sum_mul _ _ _).symm
        _ = ∑ j, v j := by simp [hpart]
        _ = 1 := hrow.2
    rw [hsum]
    norm_num

/-- C3 witness: the theorem applied to the concrete row-stochastic series
`MC3` and partitioning stage map `smC3` at horizon `1 < 2`. -/
theorem get_stage_probabilities_valid_witness :
    (∀ s : Fin 4, 0 ≤ get_stage_probabilities MC3 smC3 2 0 0 1 s
        ∧ get_stage_probabilities MC3 smC3 2 0 0 1 s ≤ 1)
    ∧ |(∑ s : Fin 4, get_stage_probabilities MC3 smC3 2 0 0 1 s) - 1| ≤ 1e-9 :=
  get_stage_probabilities_valid MC3 smC3 2 0 0 1
    (by
      intro k
      constructor
      · intro i j
        fin_cases i <;> fin_cases j <;> norm_num [MC3]
      · intro i
        fin_cases i <;> norm_num [MC3, Fin.sum_univ_two])
    (by
      intro j
      fin_cases j <;> rw [Fin.sum_univ_four] <;>
        norm_num [smC3, show (1 : Fin 4) ≠ 3 by decide,
          show (2 : Fin 4) ≠ 0 by decide, show (2 : Fin 4) ≠ 3 by decide,
          show (3 : Fin 4) ≠ 0 by decide, show (0 : Fin 2) ≠ 1 by decide,
          show (1 : Fin 2) ≠ 0 by decide])
    (by norm_num)

/-- Helper: the standard normal density is positive. -/
theorem normPDF_pos (t : ℝ) : 0 < normPDF t :=
  ProbabilityTheory.gaussianPDFReal_pos 0 1 t (by norm_num)

/-- Helper: the standard normal density is integrable. -/
theorem normPDF_integrable : MeasureTheory.Integrable normPDF :=
  ProbabilityTheory.integrable_gaussianPDFReal 0 1

/-- Helper: the standard normal density integrates to `1`. -/
theorem normPDF_integral_one : ∫ t, normPDF t = 1 :=
  ProbabilityTheory.integral_gaussianPDFReal_eq_one 0 (by norm_num)

/-- Helper: the CDF differs from its value at `0` by an interval integral. -/
theorem normCDF_sub (x : ℝ) :
    normCDF x - normCDF 0 = ∫ t in (0 : ℝ)..x, normPDF t :=
  intervalIntegral.integral_Iic_sub_Iic
    normPDF_integrable.integrableOn normPDF_integrable.integrableOn

/-- Helper: the standard normal CDF is continuous. -/
theorem normCDF_continuous : Continuous normCDF := by
  have h : normCDF = fun x => (∫ t in (0 : ℝ)..x, normPDF t) + normCDF 0 := by
    funext x
    have := normCDF_sub x
    linarith
  rw [h]
  exact (intervalIntegral.continuous_primitive
    (fun a b => normPDF_integrable.intervalIntegrable) 0).add continuous_const

/-- Helper: `normCDF n → 1` along the naturals. -/
theorem normCDF_tendsto_nat :
    Filter.Tendsto (fun n : ℕ => normCDF n) Filter.atTop (nhds 1) := by
  have hu : ⋃ n : ℕ, Set.Iic ((n : ℝ)) = Set.univ := by
    ext x
    simp only [Set.mem_iUnion, Set.mem_Iic, Set.mem_univ, iff_true]
    exact exists_nat_ge x
  have h := MeasureTheory.tendsto_setIntegral_of_monotone
    (s := fun n : ℕ => Set.Iic ((n : ℝ))) (f := normPDF)
    (fun n => measurableSet_Iic)
    (fun a b hab => Set.Iic_subset_Iic.mpr (by exact_mod_cast hab))
    (by rw [hu]; exact normPDF_integrable.integrableOn)
  rw [hu] at h
  simpa [normPDF_integral_one] using h

/-- Helper: `normCDF (-n) → 0` along the naturals. -/
theorem normCDF_tendsto_nat_bot :
    Filter.Tendsto (fun n : ℕ => normCDF (-(n : ℝ))) Filter.atTop (nhds 0) := by
  have hi : ⋂ n : ℕ, Set.Iic (-(n : ℝ)) = ∅ := by
    ext x
    simp only [Set.mem_iInter, Set.mem_Iic, Set.mem_empty_iff_false, iff_false,
      not_forall, not_le]
    obtain ⟨n, hn⟩ := exists_nat_gt (-x)
    exact ⟨n, by linarith⟩
  have h := Antitone.tendsto_setIntegral
    (s := fun n : ℕ => Set.Iic (-(n : ℝ))) (f := normPDF)
    (fun n => measurableSet_Iic)
    (fun a b hab => Set.Iic_subset_Iic.mpr (by
      simp only [neg_le_neg_iff]
      exact_mod_cast hab))
    normPDF_integrable.integrableOn
  rw [hi] at h
  simpa using h

/-- Helper: the standard normal CDF attains every value in `(0, 1)`. -/
theorem normCDF_exists_eq (c : ℝ) (h0 : 0 < c) (h1 : c < 1) :
    ∃ x, normCDF x = c := by
  obtain ⟨n, hn⟩ :=
    (normCDF_tendsto_nat.eventually (eventually_gt_nhds h1)).exists
  obtain ⟨k, hk⟩ :=
    (normCDF_tendsto_nat_bot.eventually (eventually_lt_nhds h0)).exists
  exact intermediate_value_univ (-(k : ℝ)) (n : ℝ) normCDF_continuous
    ⟨le_of_lt hk, le_of_lt hn⟩

/-- Helper: with no shift and unit scale, `pit_entry` is the identity on
`[0, 1]` (`Φ(Φ⁻¹(c)) = c`, with the boundary conventions of scipy). -/
theorem pit_entry_id (c : ℝ) (h0 : 0 ≤ c) (h1 : c ≤ 1) :
    pit_entry c 0 1 = c := by
  rw [pit_entry]
  rcases eq_or_lt_of_le h0 with hc0 | hc0
  · rw [if_pos (le_of_eq hc0.symm)]
    exact hc0
  · rw [if_neg (not_le.mpr hc0)]
    rcases eq_or_lt_of_le h1 with hc1 | hc1
    · rw [if_pos (le_of_eq hc1.symm)]
      exact hc1.symm
    · rw [if_neg (not_le.mpr hc1)]
      have harg : (normPPF c - 0) / 1 = normPPF c := by ring
      rw [harg, normPPF, Function.invFun_eq (normCDF_exists_eq c hc0 hc1)]

/-- Helper: on a row-stochastic matrix, `standardise` is the identity. -/
theorem standardise_eq_self {n : ℕ} (x : Mat n) (hx : RowStochastic x)
    (i j : Fin n) : standardise x i j = x i j := by
  have hclip : ∀ k, clip0 x i k = x i k := by
    intro k
    rw [clip0]
    simp only [Matrix.of_apply]
    rw [if_neg (not_lt.mpr (hx.1 i k))]
  rw [standardise]
  simp only [Matrix.of_apply, hclip]
  have habs : ∀ k, |x i k| = x i k := fun k => abs_of_nonneg (hx.1 i k)
  simp only [habs]
  rw [hx.2 i, div_one]

/-- Helper: on a row-stochastic matrix, the clipped upper-tail cumulative
entries are the plain tail sums. -/
theorem cttcM_eq_tail_sum {n : ℕ} (x : Mat n) (hx : RowStochastic x)
    (i j : Fin n) : cttcM x i j = ∑ k ∈ Finset.Ici j, x i k := by
  rw [cttcM]
  simp only [Matrix.of_apply]
  rw [Finset.sum_congr rfl fun k _ => standardise_eq_self x hx i k]
  have hnn : 0 ≤ ∑ k ∈ Finset.Ici j, x i k :=
    Finset.sum_nonneg fun k _ => hx.1 i k
  have hle : ∑ k ∈ Finset.Ici j, x i k ≤ 1 := by
    calc ∑ k ∈ Finset.Ici j, x i k
        ≤ ∑ k, x i k :=
          Finset.sum_le_sum_of_subset_of_nonneg (Finset.subset_univ _)
            (fun k _ _ => hx.1 i k)
      _ = 1 := hx.2 i
  rw [min_eq_left hle, max_eq_left hnn]

/-- C4: for every row-stochastic TTC monthly matrix, with `calibrated = true`
and the Z series identically `0` (METHOD-1), every PiT marginal matrix
produced by `TransitionMatrix.from_assumption` equals the standardised TTC
monthly matrix within `1e-8` per cell (here: exactly, hence within `1e-8`). -/
theorem from_assumption_m1_calibrated_z0 {n : ℕ} (ttc : Mat n) (rho : ℝ)
    (hts : RowStochastic ttc) (t : ℕ) (i j : Fin n) :
    |TransitionMatrix.from_assumption_m1 ttc rho (fun _ => 0) true t i j
      - standardise ttc i j| ≤ 1e-8 := by
  have hshift : (fun _ : ℕ => (0 : ℝ)) t * Real.sqrt rho = 0 := zero_mul _
  have hc01 : ∀ jj : Fin n, 0 ≤ cttcM ttc i jj ∧ cttcM ttc i jj ≤ 1 := by
    intro jj
    rw [cttcM_eq_tail_sum ttc hts i jj]
    constructor
    · exact Finset.sum_nonneg fun k _ => hts.1 i k
    · calc ∑ k ∈ Finset.Ici jj, ttc i k
          ≤ ∑ k, ttc i k :=
            Finset.sum_le_sum_of_subset_of_nonneg (Finset.subset_univ _)
              (fun k _ _ => hts.1 i k)
        _ = 1 := hts.2 i
  have hcum : ∀ jj : Fin n,
      m1_cum_entry ttc rho (fun _ => 0) true t i jj = cttcM ttc i jj := by
    intro jj
    rw [m1_cum_entry, if_pos rfl, hshift,
      pit_entry_id _ (hc01 jj).1 (hc01 jj).2]
  have hmain : TransitionMatrix.from_assumption_m1 ttc rho (fun _ => 0) true t i j
      = ttc i j := by
    rw [TransitionMatrix.from_assumption_m1]
    simp only [Matrix.of_apply]
    by_cases h : (j : ℕ) + 1 < n
    · rw [dif_pos h, hcum j, hcum ⟨(j : ℕ) + 1, h⟩,
        cttcM_eq_tail_sum ttc hts i j,
        cttcM_eq_tail_sum ttc hts i ⟨(j : ℕ) + 1, h⟩]
      have hins : Finset.Ici j = insert j (Finset.Ici (⟨(j : ℕ) + 1, h⟩ : Fin n)) := by
        ext k
        simp only [Finset.mem_Ici, Finset.mem_insert, Fin.le_def, Fin.ext_iff]
        omega
      have hnotm : j ∉ Finset.Ici (⟨(j : ℕ) + 1, h⟩ : Fin n) := by
        simp only [Finset.mem_Ici, Fin.le_def]
        omega
      rw [hins, Finset.sum_insert hnotm]
      ring
    · rw [dif_neg h, hcum j, cttcM_eq_tail_sum ttc hts i j]
      have hsingle : Finset.Ici j = {j} := by
        ext k
        simp only [Finset.mem_Ici, Finset.mem_singleton, Fin.le_def, Fin.ext_iff]
        have hk := k.isLt
        have hj := j.isLt
        omega
      rw [hsingle, Finset.sum_singleton]
      ring
  rw [hmain, standardise_eq_self ttc hts i j]
  norm_num

/-- C4 witness: the theorem applied to the concrete row-stochastic TTC matrix
`ttcC4` with `ρ = 1/4`, at `t = 0`, cell `(0, 1)`. -/
theorem from_assumption_m1_calibrated_z0_witness :
    RowStochastic ttcC4
    ∧ |TransitionMatrix.from_assumption_m1 ttcC4 (1/4) (fun _ => 0) true 0 0 1
        - standardise ttcC4 0 1| ≤ 1e-8 := by
  have hts : RowStochastic ttcC4 := by
    constructor
    · intro i j
      fin_cases i <;> fin_cases j <;> norm_num [ttcC4]
    · intro i
      fin_cases i <;> norm_num [ttcC4, Fin.sum_univ_two]
  exact ⟨hts, from_assumption_m1_calibrated_z0 ttcC4 (1/4) hts 0 0 1⟩

/-- Helper: the standard normal CDF is non-negative. -/
theorem normCDF_nonneg (x : ℝ) : 0 ≤ normCDF x :=
  MeasureTheory.setIntegral_nonneg measurableSet_Iic fun t _ => (normPDF_pos t).le

/-- Helper: the standard normal CDF is at most `1`. -/
theorem normCDF_le_one (x : ℝ) : normCDF x ≤ 1 := by
  have h : ∫ t in Set.Iic x, normPDF t ≤ ∫ t, normPDF t :=
    MeasureTheory.setIntegral_le_integral normPDF_integrable
      (Filter.Eventually.of_forall fun t => (normPDF_pos t).le)
  rw [normPDF_integral_one] at h
  exact h

/-- Helper: the standard normal CDF is strictly monotone. -/
theorem normCDF_strictMono : StrictMono normCDF := by
  intro x y hxy
  have hdiff : normCDF y - normCDF x = ∫ t in x..y, normPDF t :=
    intervalIntegral.integral_Iic_sub_Iic
      normPDF_integrable.integrableOn normPDF_integrable.integrableOn
  have hpos : 0 < ∫ t in x..y, normPDF t :=
    intervalIntegral.intervalIntegral_pos_of_pos
      normPDF_integrable.intervalIntegrable normPDF_pos hxy
  linarith

/-- Helper: the quantile function is monotone on the interior `(0, 1)`. -/
theorem normPPF_mono_interior {c1 c2 : ℝ} (h0 : 0 < c1) (h12 : c1 ≤ c2)
    (h1 : c2 < 1) : normPPF c1 ≤ normPPF c2 := by
  by_contra hcon
  push_neg at hcon
  have e1 : normCDF (normPPF c1) = c1 :=
    Function.invFun_eq (normCDF_exists_eq c1 h0 (lt_of_le_of_lt h12 h1))
  have e2 : normCDF (normPPF c2) = c2 :=
    Function.invFun_eq (normCDF_exists_eq c2 (lt_of_lt_of_le h0 h12) h1)
  have hlt := normCDF_strictMono hcon
  rw [e1, e2] at hlt
  linarith

/-- Helper: `pit_entry` is non-negative. -/
theorem pit_entry_nonneg (c shift scale : ℝ) : 0 ≤ pit_entry c shift scale := by
  rw [pit_entry]
  split_ifs
  · exact le_refl 0
  · norm_num
  · exact normCDF_nonneg _

/-- Helper: `pit_entry` is at most `1`. -/
theorem pit_entry_le_one (c shift scale : ℝ) : pit_entry c shift scale ≤ 1 := by
  rw [pit_entry]
  split_ifs
  · norm_num
  · exact le_refl 1
  · exact normCDF_le_one _

/-- Helper: `pit_entry` is monotone in the cumulative probability for a
positive scale. -/
theorem pit_entry_mono {c1 c2 : ℝ} (shift : ℝ) {scale : ℝ} (hs : 0 < scale)
    (h : c1 ≤ c2) : pit_entry c1 shift scale ≤ pit_entry c2 shift scale := by
  rcases le_or_lt c1 0 with hc1 | hc1
  · rw [pit_entry, if_pos hc1]
    exact pit_entry_nonneg c2 shift scale
  rcases le_or_lt 1 c2 with hc2 | hc2
  · have h2 : pit_entry c2 shift scale = 1 := by
      rw [pit_entry, if_neg (by linarith), if_pos hc2]
    rw [h2]
    exact pit_entry_le_one c1 shift scale
  rw [pit_entry, pit_entry, if_neg (by linarith), if_neg (by linarith),
    if_neg (by linarith), if_neg (by linarith)]
  apply normCDF_strictMono.monotone
  apply (div_le_div_iff_of_pos_right hs).mpr
  exact sub_le_sub_right (normPPF_mono_interior hc1 h hc2) shift

/-- Helper: `pit_entry` at the full cumulative probability `1` equals `1`. -/
theorem pit_entry_one (shift scale : ℝ) : pit_entry 1 shift scale = 1 := by
  rw [pit_entry, if_neg (by norm_num), if_pos (le_refl 1)]

/-- Helper: standardised entries are non-negative. -/
theorem standardise_nonneg {n : ℕ} (x : Mat n) (i j : Fin n) :
    0 ≤ standardise x i j := by
  rw [standardise]
  simp only [Matrix.of_apply]
  exact div_nonneg (abs_nonneg _) (Finset.sum_nonneg fun k _ => abs_nonneg _)

/-- Helper: standardised rows sum to `1` when the clipped row has mass. -/
theorem standardise_row_sum {n : ℕ} (x : Mat n) (i : Fin n)
    (hpos : 0 < ∑ k, |clip0 x i k|) : ∑ j, standardise x i j = 1 := by
  simp only [standardise, Matrix.of_apply]
  rw [← Finset.sum_div]
  exact div_self (ne_of_gt hpos)

/-- Helper: the clipped upper-tail cumulative entries decrease along a row. -/
theorem cttcM_antitone {n : ℕ} (x : Mat n) (i : Fin n) {j1 j2 : Fin n}
    (h : j1 ≤ j2) : cttcM x i j2 ≤ cttcM x i j1 := by
  simp only [cttcM, Matrix.of_apply]
  have hsum : ∑ k ∈ Finset.Ici j2, standardise x i k
      ≤ ∑ k ∈ Finset.Ici j1, standardise x i k :=
    Finset.sum_le_sum_of_subset_of_nonneg (Finset.Ici_subset_Ici.mpr h)
      (fun k _ _ => standardise_nonneg x i k)
  exact max_le_max (min_le_min hsum (le_refl 1)) (le_refl 0)

/-- Helper: the clipped cumulative entry at the first column is `1`. -/
theorem cttcM_zero_col {n : ℕ} (x : Mat n) (hn : 0 < n) (i : Fin n)
    (hpos : 0 < ∑ k, |clip0 x i k|) : cttcM x i ⟨0, hn⟩ = 1 := by
  simp only [cttcM, Matrix.of_apply]
  have huniv : Finset.Ici (⟨0, hn⟩ : Fin n) = Finset.univ := by
    ext k
    simp [Fin.le_def]
  rw [huniv, standardise_row_sum x i hpos]
  norm_num

/-- Helper: the two METHOD-1 branches written with a single scale factor. -/
theorem m1_cum_entry_eq {n : ℕ} (ttc : Mat n) (rho : ℝ) (z : ℕ → ℝ)
    (cal : Bool) (t : ℕ) (i j : Fin n) :
    m1_cum_entry ttc rho z cal t i j
      = pit_entry (cttcM ttc i j) (z t * Real.sqrt rho)
          (if cal then 1 else Real.sqrt (1 - rho)) := by
  cases cal <;> simp [m1_cum_entry]

/-- Supporting invariant (spec sections 3 and 8): every marginal PiT matrix
produced by `TransitionMatrix.from_assumption` under METHOD-1 is
row-stochastic, for `ρ < 1`, any Z path and either calibration mode, as long
as every TTC row has positive mass after clipping.  This discharges, for the
engine's own series, the row-stochasticity hypothesis used in the
stage-probability theorem. -/
theorem rowStochastic_from_assumption_m1 {n : ℕ} (hn : 0 < n) (ttc : Mat n)
    (rho : ℝ) (hrho : rho < 1) (z : ℕ → ℝ) (cal : Bool)
    (hpos : ∀ i, 0 < ∑ k, |clip0 ttc i k|) (t : ℕ) :
    RowStochastic (TransitionMatrix.from_assumption_m1 ttc rho z cal t) := by
  have hscpos : 0 < (if cal then (1 : ℝ) else Real.sqrt (1 - rho)) := by
    cases cal with
    | false =>
        simpa using Real.sqrt_pos.mpr (show (0 : ℝ) < 1 - rho by linarith)
    | true => norm_num
  constructor
  · intro i j
    rw [TransitionMatrix.from_assumption_m1]
    simp only [Matrix.of_apply]
    by_cases h : (j : ℕ) + 1 < n
    · rw [dif_pos h, m1_cum_entry_eq, m1_cum_entry_eq]
      have hle : cttcM ttc i ⟨(j : ℕ) + 1, h⟩ ≤ cttcM ttc i j :=
        cttcM_antitone ttc i (by simp [Fin.le_def])
      have hmono := pit_entry_mono (z t * Real.sqrt rho) hscpos hle
      linarith
    · rw [dif_neg h, m1_cum_entry_eq]
      have hnn := pit_entry_nonneg (cttcM ttc i j) (z t * Real.sqrt rho)
        (if cal then 1 else Real.sqrt (1 - rho))
      linarith
  · intro i
    set g : ℕ → ℝ := fun jj =>
      if hjj : jj < n then
        pit_entry (cttcM ttc i ⟨jj, hjj⟩) (z t * Real.sqrt rho)
          (if cal then 1 else Real.sqrt (1 - rho))
      else 0 with hg
    have hentry : ∀ j : Fin n,
        TransitionMatrix.from_assumption_m1 ttc rho z cal t i j
          = g (j : ℕ) - g ((j : ℕ) + 1) := by
      intro j
      have hgj : g (j : ℕ)
          = pit_entry (cttcM ttc i j) (z t * Real.sqrt rho)
              (if cal then 1 else Real.sqrt (1 - rho)) := by
        simp only [hg]
        rw [dif_pos j.isLt]
      have hgj1 : g ((j : ℕ) + 1)
          = (if h : (j : ℕ) + 1 < n then
              pit_entry (cttcM ttc i ⟨(j : ℕ) + 1, h⟩) (z t * Real.sqrt rho)
                (if cal then 1 else Real.sqrt (1 - rho))
            else 0) := by
        simp only [hg]
      rw [TransitionMatrix.from_assumption_m1]
      simp only [Matrix.of_apply, m1_cum_entry_eq]
      rw [hgj, hgj1]
    calc ∑ j : Fin n, TransitionMatrix.from_assumption_m1 ttc rho z cal t i j
        = ∑ j : Fin n, (g (j : ℕ) - g ((j : ℕ) + 1)) :=
          Finset.sum_congr rfl fun j _ => hentry j
      _ = ∑ jj ∈ Finset.range n, (g jj - g (jj + 1)) :=
          Fin.sum_univ_eq_sum_range (fun jj => g jj - g (jj + 1)) n
      _ = g 0 - g n := Finset.sum_range_sub' g n
      _ = 1 := by
          simp only [hg]
          rw [dif_pos hn, dif_neg (lt_irrefl n),
            cttcM_zero_col ttc hn i (hpos i), pit_entry_one, sub_zero]
